import Mathlib

/-!
Shallow embedding of the toy-fec block-DAG core (src/main.rs) and proofs of the
specification claims about it.

Modelling conventions:
* `u64` ids become `Nat` (id arithmetic in the program is only increment and
  comparison; the 64-bit width only matters in the big-endian hash encoding,
  where `% 256` digits of the value are taken explicitly).
* `HashMap<u64, Block>` becomes an association list `List (Nat × Block)`;
  `HashSet<u64>` becomes a `List Nat` kept duplicate-free by an
  insert-if-absent operation.  Lists make the (arbitrary) iteration order of
  the Rust hash containers explicit.
* A Rust `panic!` (the `assert!` in `create_block`, and the panicking
  `HashMap` index `self.blocks[&id]`) is modelled by `Option`: `none` means
  the call aborts.  In the source every such abort happens before any further
  observable state transition, so no partly-mutated state escapes to a caller.
* The two worklist traversals (`future_set`, `past_set`) are modelled with an
  explicit fuel argument; the fuel `blocks.length + 1` given at the call site
  dominates the number of loop iterations the Rust loop can perform, because
  every queued element is fresh in the visited set.
* The SHA-256 primitive of the `sha2` crate is external to the repository; it
  is modelled as an abstract digest function parameter `H` over byte lists.
  The byte string that is hashed is built exactly as in the source.
-/

set_option maxHeartbeats 4000000

namespace ToyFec

/-- Colors of blocks, from `enum Color` in the source. -/
inductive Color where
  | Blue : Color
  | Red : Color
  deriving DecidableEq

/-- Block record, from `struct Block`.  The 32-byte hash is a list of byte
values. -/
structure Block where
  id : Nat
  parents : List Nat
  color : Color
  hash : List Nat
  deriving DecidableEq

/-- DAG state, from `struct ToyDag`. -/
structure ToyDag where
  blocks : List (Nat × Block)
  tips : List Nat
  next_id : Nat
  selected_parent : Nat
  deriving DecidableEq

/-- Fixed k-parameter, `const K: usize = 15`. -/
def K : Nat := 15

/-- Fixed stitch threshold, `const STITCH_THRESHOLD: usize = 10`. -/
def STITCH_THRESHOLD : Nat := 10

/-- All-zero 32-byte genesis hash, `[0u8; 32]`. -/
def zero32 : List Nat := List.replicate 32 0

/-- The genesis block constructed in `ToyDag::new`. -/
def genesisBlock : Block := ⟨0, [], Color.Blue, zero32⟩

/-- Fresh DAG state, from `ToyDag::new`. -/
def ToyDag.new : ToyDag := ⟨[(0, genesisBlock)], [0], 1, 0⟩

/-- Explicit lookup in the block map (`HashMap::get`). -/
def lookupBlock : List (Nat × Block) → Nat → Option Block
  | [], _ => none
  | (k, b) :: rest, i => if k = i then some b else lookupBlock rest i

/-- Key set of the block map. -/
def keysOf (blocks : List (Nat × Block)) : List Nat := blocks.map Prod.fst

/-- Map insertion (`HashMap::insert`): replaces the entry of an existing key,
otherwise adds the entry. -/
def insertBlock : List (Nat × Block) → Nat → Block → List (Nat × Block)
  | [], i, b => [(i, b)]
  | (k, c) :: rest, i, b =>
    if k = i then (i, b) :: rest else (k, c) :: insertBlock rest i b

/-- Set insertion (`HashSet::insert`): no-op when the element is present. -/
def insertSet (x : Nat) (l : List Nat) : List Nat := if x ∈ l then l else l ++ [x]

/-- Set removal (`HashSet::remove`): drops the (unique) occurrence. -/
def removeTip : List Nat → Nat → List Nat
  | [], _ => []
  | x :: xs, p => if x = p then xs else x :: removeTip xs p

/-- One discovery step of the `past_set` worklist: a parent not yet recorded
is added to the visited set and pushed on the queue. -/
def discover (acc : List Nat × List Nat) (p : Nat) : List Nat × List Nat :=
  if p ∈ acc.1 then acc else (acc.1 ++ [p], p :: acc.2)

/-- Worklist loop of `ToyDag::past_set`.  Popping an id that is not in the
block map models the panicking index `self.blocks[&current]` and yields
`none`.  The fuel argument dominates the iteration count of the Rust loop. -/
def pastLoop (blocks : List (Nat × Block)) : List Nat → List Nat → Nat → Option (List Nat)
  | [], past, _ => some past
  | _ :: _, _, 0 => none
  | current :: queue, past, fuel + 1 =>
    match lookupBlock blocks current with
    | none => none
    | some b =>
      let st := b.parents.foldl discover (past, queue)
      pastLoop blocks st.2 st.1 fuel

/-- `ToyDag::past_set` on a raw block map. -/
def past_setB (blocks : List (Nat × Block)) (block_id : Nat) : Option (List Nat) :=
  pastLoop blocks [block_id] [block_id] (blocks.length + 1)

/-- `ToyDag::past_set`. -/
def past_set (s : ToyDag) (block_id : Nat) : Option (List Nat) :=
  past_setB s.blocks block_id

/-- One scan step of the `future_set` worklist: a stored block whose parent
list contains `current` and that is not yet recorded is added and pushed. -/
def childScan (current : Nat) (acc : List Nat × List Nat) (kb : Nat × Block) :
    List Nat × List Nat :=
  if current ∈ kb.2.parents ∧ kb.1 ∉ acc.1 then (acc.1 ++ [kb.1], kb.1 :: acc.2) else acc

/-- Worklist loop of `ToyDag::future_set`.  It performs no map lookup, so it
is total. -/
def futureLoop (blocks : List (Nat × Block)) : List Nat → List Nat → Nat → List Nat
  | [], future, _ => future
  | _ :: _, future, 0 => future
  | current :: queue, future, fuel + 1 =>
    let st := blocks.foldl (childScan current) (future, queue)
    futureLoop blocks st.2 st.1 fuel

/-- `ToyDag::future_set` on a raw block map. -/
def future_setB (blocks : List (Nat × Block)) (block_id : Nat) : List Nat :=
  futureLoop blocks [block_id] [block_id] (blocks.length + 1)

/-- `ToyDag::future_set`. -/
def future_set (s : ToyDag) (block_id : Nat) : List Nat :=
  future_setB s.blocks block_id

/-- `ToyDag::anticone_size`: directional future-set difference count with a
saturating decrement (`saturating_sub(1)` is `Nat` subtraction). -/
def anticone_size (s : ToyDag) (block_id reference_id : Nat) : Nat :=
  ((future_set s block_id).filter
    (fun x => decide (x ∉ future_set s reference_id))).length - 1

/-- Color classification done inside `ToyDag::create_block`: Blue when the
anticone size relative to the current selected parent is at most `k`. -/
def classifyColor (k : Nat) (s : ToyDag) (id : Nat) : Color :=
  if anticone_size s id s.selected_parent ≤ k then Color.Blue else Color.Red

/-- Big-endian 8-byte encoding of a 64-bit id (`u64::to_be_bytes`). -/
def beBytes (n : Nat) : List Nat :=
  [n / 2 ^ 56 % 256, n / 2 ^ 48 % 256, n / 2 ^ 40 % 256, n / 2 ^ 32 % 256,
   n / 2 ^ 24 % 256, n / 2 ^ 16 % 256, n / 2 ^ 8 % 256, n % 256]

/-- Insertion of an element into an ascending list. -/
def insSorted (x : Nat) : List Nat → List Nat
  | [] => [x]
  | y :: ys => if x ≤ y then x :: y :: ys else y :: insSorted x ys

/-- Ascending sort of a list of ids (`Vec::sort`). -/
def insSort : List Nat → List Nat
  | [] => []
  | x :: xs => insSorted x (insSort xs)

/-- Byte string fed to the hash primitive in `ToyDag::create_block`: the
big-endian id followed by the big-endian encodings of the ascending-sorted
parent ids, with no separators. -/
def hashMsg (id : Nat) (parent_ids : List Nat) : List Nat :=
  beBytes id ++ ((insSort parent_ids).map beBytes).flatten

/-- Tip update loop of `ToyDag::create_block`: each parent is removed when
the tip set has more than one element or the parent is not currently a tip. -/
def removeTips (tips : List Nat) (parent_ids : List Nat) : List Nat :=
  parent_ids.foldl
    (fun t pid => if t.length > 1 ∨ pid ∉ t then removeTip t pid else t) tips

/-- Blue filter of `ToyDag::update_selected_parent`.  The panicking index
`self.blocks[&t]` on each tip is the explicit lookup; a missing tip aborts. -/
def blueTips (blocks : List (Nat × Block)) : List Nat → Option (List Nat)
  | [] => some []
  | t :: ts =>
    match lookupBlock blocks t with
    | none => none
    | some b =>
      match blueTips blocks ts with
      | none => none
      | some rest => some (if b.color = Color.Blue then t :: rest else rest)

/-- Past-set sizes keyed by tip, as evaluated by `max_by_key` in
`ToyDag::update_selected_parent`; any `past_set` abort aborts the whole
computation. -/
def pastSizes (blocks : List (Nat × Block)) : List Nat → Option (List (Nat × Nat))
  | [] => some []
  | t :: ts =>
    match past_setB blocks t with
    | none => none
    | some r =>
      match pastSizes blocks ts with
      | none => none
      | some rest => some ((t, r.length) :: rest)

/-- Fold step of `Iterator::max_by_key`: on an equal key the later element
replaces the earlier one, matching the documented last-maximum rule. -/
def pickMax (acc : Option (Nat × Nat)) (x : Nat × Nat) : Option (Nat × Nat) :=
  match acc with
  | none => some x
  | some b => if b.2 ≤ x.2 then some x else some b

/-- `Iterator::max_by_key` over (tip, past-size) pairs. -/
def maxByKeyLast (l : List (Nat × Nat)) : Option (Nat × Nat) := l.foldl pickMax none

/-- `ToyDag::update_selected_parent`: filter the tips to Blue ones, key them
by past-set cardinality, and take the last maximum; with no Blue tip the
selected parent is unchanged. -/
def update_selected_parent (s : ToyDag) : Option ToyDag :=
  match blueTips s.blocks s.tips with
  | none => none
  | some bts =>
    match pastSizes s.blocks bts with
    | none => none
    | some keyed =>
      match maxByKeyLast keyed with
      | some best => some { s with selected_parent := best.1 }
      | none => some s

/-- `ToyDag::create_block`, parametrized by the external digest function `H`
and the k-parameter.  The empty-parents `assert!` is checked first and aborts
with the state untouched.  The color is classified against the state before
the new block is inserted. -/
def create_block (H : List Nat → List Nat) (k : Nat) (s : ToyDag)
    (parent_ids : List Nat) : Option (ToyDag × Nat) :=
  if parent_ids = [] then none
  else
    let id := s.next_id
    let color := classifyColor k s id
    let hash := H (hashMsg id parent_ids)
    let block : Block := ⟨id, parent_ids, color, hash⟩
    let s' : ToyDag :=
      ⟨insertBlock s.blocks id block,
       insertSet id (removeTips s.tips parent_ids),
       id + 1, s.selected_parent⟩
    match update_selected_parent s' with
    | none => none
    | some s'' => some (s'', id)

/-- The block record assembled inside `ToyDag::create_block` for the next
fresh id. -/
def newBlock (H : List Nat → List Nat) (k : Nat) (s : ToyDag)
    (parent_ids : List Nat) : Block :=
  ⟨s.next_id, parent_ids, classifyColor k s s.next_id, H (hashMsg s.next_id parent_ids)⟩

/-- The state reached inside `ToyDag::create_block` after inserting the new
block and updating the tip set, just before the selected parent is
recomputed. -/
def midState (H : List Nat → List Nat) (k : Nat) (s : ToyDag)
    (parent_ids : List Nat) : ToyDag :=
  ⟨insertBlock s.blocks s.next_id (newBlock H k s parent_ids),
   insertSet s.next_id (removeTips s.tips parent_ids),
   s.next_id + 1, s.selected_parent⟩

/-- `ToyDag::stitch_if_needed`, parametrized by the stitch threshold: when
the tip count exceeds the threshold, a merge block is created whose parent
list is the snapshot of the whole tip set. -/
def stitch_if_needed (H : List Nat → List Nat) (k thr : Nat) (s : ToyDag) :
    Option ToyDag :=
  if s.tips.length > thr then
    match create_block H k s s.tips with
    | none => none
    | some (s', _) => some s'
  else some s

/-- Parent-edge relation read off the block map: `b` is a parent of `a`. -/
def ParentEdge (blocks : List (Nat × Block)) (a b : Nat) : Prop :=
  ∃ blk, lookupBlock blocks a = some blk ∧ b ∈ blk.parents

/-- Reachability along parent edges (reflexive-transitive). -/
def ReachPar (blocks : List (Nat × Block)) : Nat → Nat → Prop :=
  Relation.ReflTransGen (ParentEdge blocks)

/-- Every parent referenced by a stored block is itself a stored key. -/
def Closed (blocks : List (Nat × Block)) : Prop :=
  ∀ kb ∈ blocks, ∀ p ∈ (kb : Nat × Block).2.parents, p ∈ keysOf blocks

/-- Well-formedness of a DAG state: closed store, all keys below the id
counter, and all tips stored. -/
def WfDag (s : ToyDag) : Prop :=
  Closed s.blocks ∧ (∀ i ∈ keysOf s.blocks, i < s.next_id) ∧
    ∀ t ∈ s.tips, t ∈ keysOf s.blocks

/-- States reachable from the fresh DAG by the two driver entry points. -/
inductive Reachable (H : List Nat → List Nat) (k thr : Nat) : ToyDag → Prop where
  | base : Reachable H k thr ToyDag.new
  | create (s s' : ToyDag) (ps : List Nat) (id : Nat) :
      Reachable H k thr s → create_block H k s ps = some (s', id) →
      Reachable H k thr s'
  | stitch (s s' : ToyDag) :
      Reachable H k thr s → stitch_if_needed H k thr s = some s' →
      Reachable H k thr s'

/-- Concrete stand-in for the external digest function in evaluations; the
DAG control flow never reads hash bytes, so any digest works there. -/
def H0 : List Nat → List Nat := fun _ => zero32

/-- Iterated creation of children of genesis, used for concrete scenarios. -/
def iterCreate (H : List Nat → List Nat) (k : Nat) : Nat → Option ToyDag
  | 0 => some ToyDag.new
  | n + 1 =>
    match iterCreate H k n with
    | none => none
    | some s =>
      match create_block H k s [0] with
      | none => none
      | some (s', _) => some s'

/-- Sorting of block records by id (`sort_by_key(|b| b.id)`), insertion step. -/
def insSortedById (b : Block) : List Block → List Block
  | [] => [b]
  | c :: cs => if b.id ≤ c.id then b :: c :: cs else c :: insSortedById b cs

/-- Sorting of block records by id (`sort_by_key(|b| b.id)`). -/
def sortById : List Block → List Block
  | [] => []
  | b :: bs => insSortedById b (sortById bs)

/-- Byte buffer handed to the FEC collaborator in `main`: the stored blocks
sorted by id ascending, their hashes concatenated with no separators. -/
def dag_hash_buffer (s : ToyDag) : List Nat :=
  ((sortById (s.blocks.map Prod.snd)).map Block.hash).flatten

/-- Modelled from the spec: the FEC collaborator (the external `raptorq`
crate, whose code is not under src/) encodes the buffer into source and
repair packets; here every packet redundantly carries the original buffer,
a degenerate erasure code faithful to the interface of section 6 of the
spec. -/
def fecEncode (buf : List Nat) (repair : Nat) : List (List Nat) :=
  List.replicate (repair + 1) buf

/-- Modelled from the spec: decoding an arbitrary, possibly incomplete and
reordered subset of the packets reports success with the recovered buffer,
or failure when nothing can be recovered. -/
def fecDecode (received : List (List Nat)) : Option (List Nat) :=
  received.head?

/-- Every stored block is colored Blue. -/
def AllBlue (s : ToyDag) : Prop :=
  ∀ kb ∈ s.blocks, (kb : Nat × Block).2.color = Color.Blue

/-- Concrete well-formed state with eleven children of genesis, all of them
tips, used to instantiate the stitching theorem. -/
def c1w : ToyDag :=
  ⟨(0, genesisBlock) ::
     (List.range 11).map (fun j => (j + 1, ⟨j + 1, [0], Color.Blue, zero32⟩)),
   (List.range 11).map (fun j => j + 1), 12, 1⟩

/-- Result of stitching `c1w`. -/
def c1post : ToyDag := (stitch_if_needed H0 K STITCH_THRESHOLD c1w).getD ToyDag.new

/-- Store holding genesis and two Blue children of genesis with equal past
sizes. -/
def c3blocks : List (Nat × Block) :=
  [(0, genesisBlock), (1, ⟨1, [0], Color.Blue, zero32⟩),
   (2, ⟨2, [0], Color.Blue, zero32⟩)]

/-- State whose tip set iterates as 1 then 2. -/
def c3s12 : ToyDag := ⟨c3blocks, [1, 2], 3, 0⟩

/-- State with the same blocks and the same tip membership, iterating as 2
then 1. -/
def c3s21 : ToyDag := ⟨c3blocks, [2, 1], 3, 0⟩

/-- Result of recomputing the selected parent on `c3s12`. -/
def c3post12 : ToyDag := ⟨c3blocks, [1, 2], 3, 2⟩

/-- State after one `create_block([0])` on a fresh DAG. -/
def oneChild : ToyDag :=
  ((create_block H0 K ToyDag.new [0]).map Prod.fst).getD ToyDag.new

/-- Result pair of the first `create_block([0])` on a fresh DAG. -/
def onePair : ToyDag × Nat :=
  (create_block H0 K ToyDag.new [0]).getD (ToyDag.new, 0)

/-- The block created by the first `create_block([0])` on a fresh DAG. -/
def oneBlk : Block := ⟨1, [0], Color.Blue, zero32⟩

/-- Result pair of a two-parent creation on `oneChild`, with the parents
listed in descending order. -/
def twoPair : ToyDag × Nat :=
  (create_block H0 K oneChild [1, 0]).getD (ToyDag.new, 0)

/-! ### Lemmas about the block map -/

theorem lookupBlock_mem {bl : List (Nat × Block)} {i : Nat} {b : Block}
    (h : lookupBlock bl i = some b) : (i, b) ∈ bl := by
  induction bl with
  | nil => simp [lookupBlock] at h
  | cons kb rest ih =>
    obtain ⟨k, c⟩ := kb
    by_cases hk : k = i
    · subst hk
      simp [lookupBlock] at h
      subst h
      exact List.mem_cons_self _ _
    · simp only [lookupBlock, if_neg hk] at h
      exact List.mem_cons_of_mem _ (ih h)

theorem lookup_mem_keys {bl : List (Nat × Block)} {i : Nat} {b : Block}
    (h : lookupBlock bl i = some b) : i ∈ keysOf bl := by
  have := lookupBlock_mem h
  exact List.mem_map_of_mem Prod.fst this

theorem mem_keys_lookup {bl : List (Nat × Block)} {i : Nat}
    (h : i ∈ keysOf bl) : ∃ b, lookupBlock bl i = some b := by
  induction bl with
  | nil => simp [keysOf] at h
  | cons kb rest ih =>
    obtain ⟨k, c⟩ := kb
    by_cases hk : k = i
    · exact ⟨c, by simp [lookupBlock, hk]⟩
    · simp only [keysOf, List.map_cons, List.mem_cons] at h
      rcases h with h | h
      · exact absurd h (fun hh => hk hh.symm)
      · simpa [lookupBlock, if_neg hk] using ih h

theorem lookupBlock_insertBlock_self (bl : List (Nat × Block)) (i : Nat) (b : Block) :
    lookupBlock (insertBlock bl i b) i = some b := by
  induction bl with
  | nil => simp [insertBlock, lookupBlock]
  | cons kb rest ih =>
    obtain ⟨k, c⟩ := kb
    by_cases hk : k = i
    · simp [insertBlock, hk, lookupBlock]
    · simp [insertBlock, hk, lookupBlock, ih]

theorem lookupBlock_insertBlock_ne {bl : List (Nat × Block)} {i j : Nat} (b : Block)
    (hne : j ≠ i) : lookupBlock (insertBlock bl i b) j = lookupBlock bl j := by
  have hij : ¬ i = j := fun hh => hne hh.symm
  induction bl with
  | nil => simp [insertBlock, lookupBlock, hij]
  | cons kb rest ih =>
    obtain ⟨k, c⟩ := kb
    by_cases hk : k = i
    · subst hk
      simp [insertBlock, lookupBlock, hij]
    · simp [insertBlock, hk, lookupBlock, ih]

theorem mem_insertBlock {bl : List (Nat × Block)} {i : Nat} {b : Block}
    {kb : Nat × Block} (h : kb ∈ insertBlock bl i b) : kb = (i, b) ∨ kb ∈ bl := by
  induction bl with
  | nil => simp [insertBlock] at h; exact Or.inl h
  | cons kc rest ih =>
    obtain ⟨k, c⟩ := kc
    by_cases hk : k = i
    · simp [insertBlock, hk] at h
      rcases h with h | h
      · exact Or.inl (by simp [h])
      · exact Or.inr (List.mem_cons_of_mem _ h)
    · rw [insertBlock, if_neg hk, List.mem_cons] at h
      rcases h with h | h
      · exact Or.inr (by simp [h])
      · rcases ih h with h | h
        · exact Or.inl h
        · exact Or.inr (List.mem_cons_of_mem _ h)

theorem keysOf_cons (k : Nat) (c : Block) (rest : List (Nat × Block)) :
    keysOf ((k, c) :: rest) = k :: keysOf rest := rfl

theorem mem_keys_insertBlock {bl : List (Nat × Block)} {x i : Nat} (b : Block)
    (h : x ∈ keysOf bl) : x ∈ keysOf (insertBlock bl i b) := by
  induction bl with
  | nil => simp [keysOf] at h
  | cons kc rest ih =>
    obtain ⟨k, c⟩ := kc
    rw [keysOf_cons, List.mem_cons] at h
    by_cases hk : k = i
    · rw [insertBlock, if_pos hk, keysOf_cons, List.mem_cons]
      rcases h with h | h
      · exact Or.inl (h.trans hk)
      · exact Or.inr h
    · rw [insertBlock, if_neg hk, keysOf_cons, List.mem_cons]
      rcases h with h | h
      · exact Or.inl h
      · exact Or.inr (ih h)

theorem keys_insertBlock_cases {bl : List (Nat × Block)} {x i : Nat} {b : Block}
    (h : x ∈ keysOf (insertBlock bl i b)) : x = i ∨ x ∈ keysOf bl := by
  induction bl with
  | nil =>
    rw [insertBlock, keysOf_cons, List.mem_cons] at h
    rcases h with h | h
    · exact Or.inl h
    · simp [keysOf] at h
  | cons kc rest ih =>
    obtain ⟨k, c⟩ := kc
    by_cases hk : k = i
    · rw [insertBlock, if_pos hk, keysOf_cons, List.mem_cons] at h
      rcases h with h | h
      · exact Or.inl h
      · exact Or.inr (by rw [keysOf_cons, List.mem_cons]; exact Or.inr h)
    · rw [insertBlock, if_neg hk, keysOf_cons, List.mem_cons] at h
      rcases h with h | h
      · exact Or.inr (by rw [keysOf_cons, List.mem_cons]; exact Or.inl h)
      · rcases ih h with h | h
        · exact Or.inl h
        · exact Or.inr (by rw [keysOf_cons, List.mem_cons]; exact Or.inr h)

theorem length_insertBlock {bl : List (Nat × Block)} {i : Nat} (b : Block)
    (h : i ∉ keysOf bl) : (insertBlock bl i b).length = bl.length + 1 := by
  induction bl with
  | nil => simp [insertBlock]
  | cons kc rest ih =>
    obtain ⟨k, c⟩ := kc
    rw [keysOf_cons, List.mem_cons] at h
    push_neg at h
    have hk : ¬ k = i := fun hh => h.1 hh.symm
    simp [insertBlock, hk, ih h.2]

/-! ### Lemmas about tip-set operations -/

theorem mem_insertSet_self (x : Nat) (l : List Nat) : x ∈ insertSet x l := by
  by_cases hx : x ∈ l <;> simp [insertSet, hx]

theorem mem_insertSet_cases {x y : Nat} {l : List Nat}
    (h : y ∈ insertSet x l) : y = x ∨ y ∈ l := by
  by_cases hx : x ∈ l
  · simp [insertSet, hx] at h; exact Or.inr h
  · simp [insertSet, hx] at h; tauto

theorem subset_insertSet (x : Nat) (l : List Nat) : l ⊆ insertSet x l := by
  by_cases hx : x ∈ l <;> simp [insertSet, hx, List.subset_append_left]

theorem insertSet_ne_nil (x : Nat) (l : List Nat) : insertSet x l ≠ [] := by
  intro h
  have hx := mem_insertSet_self x l
  rw [h] at hx
  simp at hx

theorem length_insertSet {x : Nat} {l : List Nat} (h : x ∉ l) :
    (insertSet x l).length = l.length + 1 := by
  simp [insertSet, h]

theorem removeTip_sublist (l : List Nat) (p : Nat) : List.Sublist (removeTip l p) l := by
  induction l with
  | nil => simp [removeTip]
  | cons x xs ih =>
    by_cases hx : x = p
    · rw [removeTip, if_pos hx]
      exact List.sublist_cons_self x xs
    · rw [removeTip, if_neg hx]
      exact List.Sublist.cons₂ x ih

theorem removeTip_subset (l : List Nat) (p : Nat) : removeTip l p ⊆ l :=
  (removeTip_sublist l p).subset

theorem removeTip_nodup {l : List Nat} (p : Nat) (h : l.Nodup) :
    (removeTip l p).Nodup := h.sublist (removeTip_sublist l p)

theorem length_removeTip {l : List Nat} {p : Nat} (h : p ∈ l) :
    (removeTip l p).length + 1 = l.length := by
  induction l with
  | nil => simp at h
  | cons x xs ih =>
    by_cases hx : x = p
    · simp [removeTip, hx]
    · rcases List.mem_cons.mp h with h' | h'
      · exact absurd h'.symm hx
      · simp [removeTip, hx, ih h']

theorem mem_removeTip_of_ne {l : List Nat} {x p : Nat} (hx : x ∈ l) (hne : x ≠ p) :
    x ∈ removeTip l p := by
  induction l with
  | nil => simp at hx
  | cons y ys ih =>
    by_cases hy : y = p
    · subst hy
      rcases List.mem_cons.mp hx with h' | h'
      · exact absurd h' hne
      · simpa [removeTip] using h'
    · rcases List.mem_cons.mp hx with h' | h'
      · simp [removeTip, hy, h']
      · simp [removeTip, hy, ih h']

theorem not_mem_removeTip {l : List Nat} {p : Nat} (h : l.Nodup) :
    p ∉ removeTip l p := by
  induction l with
  | nil => simp [removeTip]
  | cons x xs ih =>
    rcases List.nodup_cons.mp h with ⟨hx, hxs⟩
    by_cases hp : x = p
    · subst hp
      simpa [removeTip] using hx
    · simp [removeTip, hp]
      exact ⟨fun hh => hp hh.symm, ih hxs⟩

theorem removeTips_nil (tips : List Nat) : removeTips tips [] = tips := rfl

theorem removeTips_cons (tips : List Nat) (p : Nat) (ps : List Nat) :
    removeTips tips (p :: ps) =
      removeTips (if tips.length > 1 ∨ p ∉ tips then removeTip tips p else tips) ps := rfl

theorem removeTips_subset : ∀ (ps tips : List Nat), removeTips tips ps ⊆ tips := by
  intro ps
  induction ps with
  | nil =>
    intro tips
    rw [removeTips_nil]
    exact fun x hx => hx
  | cons p ps ih =>
    intro tips
    rw [removeTips_cons]
    by_cases hg : tips.length > 1 ∨ p ∉ tips
    · rw [if_pos hg]
      exact (ih (removeTip tips p)).trans (removeTip_subset tips p)
    · rw [if_neg hg]
      exact ih tips

theorem removeTips_nodup : ∀ (ps tips : List Nat), tips.Nodup → (removeTips tips ps).Nodup := by
  intro ps
  induction ps with
  | nil => intro tips h; rwa [removeTips_nil]
  | cons p ps ih =>
    intro tips h
    rw [removeTips_cons]
    by_cases hg : tips.length > 1 ∨ p ∉ tips
    · rw [if_pos hg]
      exact ih _ (removeTip_nodup p h)
    · rw [if_neg hg]
      exact ih tips h

theorem removeTips_cover : ∀ (ps tips : List Nat), ps.Nodup → (∀ x ∈ ps, x ∈ tips) →
    tips.Nodup → 1 ≤ tips.length →
    (removeTips tips ps).length = max (tips.length - ps.length) 1 := by
  intro ps
  induction ps with
  | nil =>
    intro tips _ _ _ hlen
    rw [removeTips_nil, List.length_nil, Nat.sub_zero, Nat.max_eq_left hlen]
  | cons p ps ih =>
    intro tips hnd hsub hnt hlen
    rcases List.nodup_cons.mp hnd with ⟨hp, hnd'⟩
    have hmem : p ∈ tips := hsub p (List.mem_cons_self _ _)
    rw [removeTips_cons]
    by_cases hbig : tips.length > 1
    · rw [if_pos (Or.inl hbig)]
      have hlr : (removeTip tips p).length + 1 = tips.length := length_removeTip hmem
      have hrec := ih (removeTip tips p) hnd'
        (fun x hx => mem_removeTip_of_ne (hsub x (List.mem_cons_of_mem _ hx))
          (fun hh => hp (hh ▸ hx)))
        (removeTip_nodup p hnt) (by omega)
      rw [hrec]
      have harg : (removeTip tips p).length - ps.length =
          tips.length - (p :: ps).length := by
        rw [List.length_cons]
        omega
      rw [harg]
    · have h1 : tips.length = 1 := by omega
      rcases List.length_eq_one.mp h1 with ⟨a, ha⟩
      have hpa : p = a := by
        rw [ha] at hmem
        simpa using hmem
      have hguard : ¬ (tips.length > 1 ∨ p ∉ tips) := by
        push_neg
        exact ⟨by omega, hmem⟩
      rw [if_neg hguard]
      have hps : ps = [] := by
        rcases ps with _ | ⟨q, qs⟩
        · rfl
        · exfalso
          have hq : q ∈ tips := hsub q (List.mem_cons_of_mem _ (List.mem_cons_self _ _))
          rw [ha] at hq
          have hqa : q = a := by simpa using hq
          exact hp (by
            rw [List.mem_cons]
            exact Or.inl (hpa.trans hqa.symm))
      subst hps
      rw [removeTips_nil, h1]
      have harg : 1 - (p :: ([] : List Nat)).length = 0 := by simp
      rw [harg, Nat.max_eq_right (Nat.zero_le 1)]

/-! ### Lemmas about sorting -/

theorem insSorted_perm (x : Nat) (l : List Nat) :
    List.Perm (insSorted x l) (x :: l) := by
  induction l with
  | nil => simp [insSorted]
  | cons y ys ih =>
    by_cases hxy : x ≤ y
    · simp [insSorted, hxy]
    · rw [insSorted, if_neg hxy]
      exact (List.Perm.cons y ih).trans (List.Perm.swap x y ys)

theorem insSort_perm (l : List Nat) : List.Perm (insSort l) l := by
  induction l with
  | nil => simp [insSort]
  | cons x xs ih =>
    rw [insSort]
    exact (insSorted_perm x (insSort xs)).trans (List.Perm.cons x ih)

theorem insSorted_sorted {l : List Nat} (x : Nat) (h : l.Sorted (· ≤ ·)) :
    (insSorted x l).Sorted (· ≤ ·) := by
  induction l with
  | nil => simp [insSorted]
  | cons y ys ih =>
    rcases List.sorted_cons.mp h with ⟨hy, hys⟩
    by_cases hxy : x ≤ y
    · rw [insSorted, if_pos hxy]
      exact List.sorted_cons.mpr ⟨by
        intro b hb
        rcases List.mem_cons.mp hb with hb | hb
        · exact hb ▸ hxy
        · exact hxy.trans (hy b hb), h⟩
    · rw [insSorted, if_neg hxy]
      have hyx : y ≤ x := Nat.le_of_lt (Nat.lt_of_not_le hxy)
      refine List.sorted_cons.mpr ⟨?_, ih hys⟩
      intro b hb
      have hb' := (insSorted_perm x ys).mem_iff.mp hb
      rcases List.mem_cons.mp hb' with hb' | hb'
      · exact hb' ▸ hyx
      · exact hy b hb'

theorem insSort_sorted (l : List Nat) : (insSort l).Sorted (· ≤ ·) := by
  induction l with
  | nil => simp [insSort]
  | cons x xs ih => exact insSorted_sorted x ih

theorem insSort_eq_of_perm {l₁ l₂ : List Nat} (h : List.Perm l₁ l₂) :
    insSort l₁ = insSort l₂ :=
  List.eq_of_perm_of_sorted
    ((insSort_perm l₁).trans (h.trans (insSort_perm l₂).symm))
    (insSort_sorted l₁) (insSort_sorted l₂)

theorem insSortedById_perm (b : Block) (l : List Block) :
    List.Perm (insSortedById b l) (b :: l) := by
  induction l with
  | nil => simp [insSortedById]
  | cons c cs ih =>
    by_cases hbc : b.id ≤ c.id
    · simp [insSortedById, hbc]
    · rw [insSortedById, if_neg hbc]
      exact (List.Perm.cons c ih).trans (List.Perm.swap b c cs)

theorem sortById_perm (l : List Block) : List.Perm (sortById l) l := by
  induction l with
  | nil => simp [sortById]
  | cons b bs ih =>
    rw [sortById]
    exact (insSortedById_perm b (sortById bs)).trans (List.Perm.cons b ih)

theorem insSortedById_pairwise {l : List Block} (b : Block)
    (h : l.Pairwise (fun a c => a.id ≤ c.id)) :
    (insSortedById b l).Pairwise (fun a c => a.id ≤ c.id) := by
  induction l with
  | nil => simp [insSortedById]
  | cons c cs ih =>
    rcases List.pairwise_cons.mp h with ⟨hc, hcs⟩
    by_cases hbc : b.id ≤ c.id
    · rw [insSortedById, if_pos hbc]
      refine List.pairwise_cons.mpr ⟨?_, h⟩
      intro d hd
      rcases List.mem_cons.mp hd with hd | hd
      · exact hd ▸ hbc
      · exact hbc.trans (hc d hd)
    · rw [insSortedById, if_neg hbc]
      have hcb : c.id ≤ b.id := Nat.le_of_lt (Nat.lt_of_not_le hbc)
      refine List.pairwise_cons.mpr ⟨?_, ih hcs⟩
      intro d hd
      have hd' := (insSortedById_perm b cs).mem_iff.mp hd
      rcases List.mem_cons.mp hd' with hd' | hd'
      · exact hd' ▸ hcb
      · exact hc d hd'

theorem sortById_pairwise (l : List Block) :
    (sortById l).Pairwise (fun a c => a.id ≤ c.id) := by
  induction l with
  | nil => simp [sortById]
  | cons b bs ih => exact insSortedById_pairwise b ih

/-! ### Lemmas about the maximum selection -/

theorem pickMax_fold_mem : ∀ (l : List (Nat × Nat)) (acc : Option (Nat × Nat))
    (m : Nat × Nat), l.foldl pickMax acc = some m → acc = some m ∨ m ∈ l := by
  intro l
  induction l with
  | nil => intro acc m h; exact Or.inl h
  | cons x xs ih =>
    intro acc m h
    rw [List.foldl_cons] at h
    rcases ih (pickMax acc x) m h with h' | h'
    · cases acc with
      | none =>
        simp [pickMax] at h'
        exact Or.inr (by simp [h'])
      | some b =>
        by_cases hb : b.2 ≤ x.2
        · simp [pickMax, hb] at h'
          exact Or.inr (by simp [h'])
        · simp [pickMax, hb] at h'
          exact Or.inl (by simp [h'])
    · exact Or.inr (List.mem_cons_of_mem _ h')

theorem pickMax_fold_max : ∀ (l : List (Nat × Nat)) (acc : Option (Nat × Nat))
    (m : Nat × Nat), l.foldl pickMax acc = some m →
    (∀ b, acc = some b → b.2 ≤ m.2) ∧ (∀ x ∈ l, x.2 ≤ m.2) := by
  intro l
  induction l with
  | nil =>
    intro acc m h
    rw [List.foldl_nil] at h
    refine ⟨fun b hb => ?_, by simp⟩
    rw [h] at hb
    cases hb
    exact Nat.le_refl _
  | cons x xs ih =>
    intro acc m h
    rw [List.foldl_cons] at h
    have hstep := ih (pickMax acc x) m h
    have hx : x.2 ≤ m.2 := by
      cases acc with
      | none => exact hstep.1 x (by simp [pickMax])
      | some b =>
        by_cases hb : b.2 ≤ x.2
        · exact hstep.1 x (by simp [pickMax, hb])
        · have hbx : x.2 ≤ b.2 := Nat.le_of_lt (Nat.lt_of_not_le hb)
          exact hbx.trans (hstep.1 b (by simp [pickMax, hb]))
    refine ⟨fun b hb => ?_, fun y hy => ?_⟩
    · rw [hb] at hstep
      by_cases hbx : b.2 ≤ x.2
      · exact hbx.trans hx
      · exact hstep.1 b (by simp [pickMax, hbx])
    · rcases List.mem_cons.mp hy with hy | hy
      · exact hy ▸ hx
      · exact hstep.2 y hy

theorem pickMax_fold_some : ∀ (l : List (Nat × Nat)) (b : Nat × Nat),
    ∃ m, l.foldl pickMax (some b) = some m := by
  intro l
  induction l with
  | nil => intro b; exact ⟨b, rfl⟩
  | cons x xs ih =>
    intro b
    rw [List.foldl_cons]
    by_cases hb : b.2 ≤ x.2
    · simpa [pickMax, hb] using ih x
    · simpa [pickMax, hb] using ih b

theorem maxByKeyLast_mem {l : List (Nat × Nat)} {m : Nat × Nat}
    (h : maxByKeyLast l = some m) : m ∈ l := by
  rcases pickMax_fold_mem l none m h with h' | h'
  · cases h'
  · exact h'

theorem maxByKeyLast_max {l : List (Nat × Nat)} {m : Nat × Nat}
    (h : maxByKeyLast l = some m) : ∀ x ∈ l, x.2 ≤ m.2 :=
  (pickMax_fold_max l none m h).2

theorem maxByKeyLast_none {l : List (Nat × Nat)}
    (h : maxByKeyLast l = none) : l = [] := by
  cases l with
  | nil => rfl
  | cons x xs =>
    exfalso
    rcases pickMax_fold_some xs x with ⟨m, hm⟩
    rw [maxByKeyLast, List.foldl_cons] at h
    have : pickMax none x = some x := by simp [pickMax]
    rw [this, hm] at h
    cases h

/-! ### Lemmas about the Blue filter and the past-size keys -/

theorem blueTips_sound {bl : List (Nat × Block)} :
    ∀ {ts bts : List Nat}, blueTips bl ts = some bts →
      ∀ t ∈ bts, t ∈ ts ∧ ∃ b, lookupBlock bl t = some b ∧ b.color = Color.Blue := by
  intro ts
  induction ts with
  | nil =>
    intro bts h t ht
    simp [blueTips] at h
    subst h
    simp at ht
  | cons u us ih =>
    intro bts h t ht
    rw [blueTips] at h
    cases hl : lookupBlock bl u with
    | none => rw [hl] at h; cases h
    | some b =>
      rw [hl] at h
      cases hr : blueTips bl us with
      | none => rw [hr] at h; cases h
      | some rest =>
        rw [hr] at h
        have hbts : bts = if b.color = Color.Blue then u :: rest else rest := by
          cases h; rfl
        subst hbts
        by_cases hc : b.color = Color.Blue
        · rw [if_pos hc] at ht
          rcases List.mem_cons.mp ht with ht | ht
          · subst ht
            exact ⟨List.mem_cons_self _ _, b, hl, hc⟩
          · rcases ih hr t ht with ⟨h1, h2⟩
            exact ⟨List.mem_cons_of_mem _ h1, h2⟩
        · rw [if_neg hc] at ht
          rcases ih hr t ht with ⟨h1, h2⟩
          exact ⟨List.mem_cons_of_mem _ h1, h2⟩

theorem blueTips_complete {bl : List (Nat × Block)} :
    ∀ {ts bts : List Nat}, blueTips bl ts = some bts →
      ∀ t ∈ ts, ∀ b, lookupBlock bl t = some b → b.color = Color.Blue → t ∈ bts := by
  intro ts
  induction ts with
  | nil => intro bts h t ht; simp at ht
  | cons u us ih =>
    intro bts h t ht b hb hc
    rw [blueTips] at h
    cases hl : lookupBlock bl u with
    | none => rw [hl] at h; cases h
    | some c =>
      rw [hl] at h
      cases hr : blueTips bl us with
      | none => rw [hr] at h; cases h
      | some rest =>
        rw [hr] at h
        have hbts : bts = if c.color = Color.Blue then u :: rest else rest := by
          cases h; rfl
        subst hbts
        rcases List.mem_cons.mp ht with ht | ht
        · subst ht
          have hcb : c = b := by
            rw [hl] at hb
            cases hb
            rfl
          subst hcb
          rw [if_pos hc]
          exact List.mem_cons_self _ _
        · have := ih hr t ht b hb hc
          by_cases hcc : c.color = Color.Blue
          · rw [if_pos hcc]
            exact List.mem_cons_of_mem _ this
          · rw [if_neg hcc]
            exact this

theorem blueTips_success {bl : List (Nat × Block)} :
    ∀ {ts : List Nat}, (∀ t ∈ ts, ∃ b, lookupBlock bl t = some b) →
      ∃ bts, blueTips bl ts = some bts := by
  intro ts
  induction ts with
  | nil => intro _; exact ⟨[], rfl⟩
  | cons u us ih =>
    intro h
    rcases h u (List.mem_cons_self _ _) with ⟨b, hb⟩
    rcases ih (fun t ht => h t (List.mem_cons_of_mem _ ht)) with ⟨rest, hrest⟩
    refine ⟨if b.color = Color.Blue then u :: rest else rest, ?_⟩
    rw [blueTips, hb, hrest]

theorem pastSizes_fst {bl : List (Nat × Block)} :
    ∀ {bts : List Nat} {keyed : List (Nat × Nat)},
      pastSizes bl bts = some keyed → keyed.map Prod.fst = bts := by
  intro bts
  induction bts with
  | nil =>
    intro keyed h
    simp [pastSizes] at h
    subst h
    rfl
  | cons t ts ih =>
    intro keyed h
    rw [pastSizes] at h
    cases hp : past_setB bl t with
    | none => rw [hp] at h; cases h
    | some r =>
      rw [hp] at h
      cases hr : pastSizes bl ts with
      | none => rw [hr] at h; cases h
      | some rest =>
        rw [hr] at h
        have : keyed = (t, r.length) :: rest := by cases h; rfl
        subst this
        simp [ih hr]

theorem pastSizes_sound {bl : List (Nat × Block)} :
    ∀ {bts : List Nat} {keyed : List (Nat × Nat)},
      pastSizes bl bts = some keyed →
      ∀ t n, (t, n) ∈ keyed → ∃ r, past_setB bl t = some r ∧ r.length = n := by
  intro bts
  induction bts with
  | nil =>
    intro keyed h t n ht
    simp [pastSizes] at h
    subst h
    simp at ht
  | cons u us ih =>
    intro keyed h t n ht
    rw [pastSizes] at h
    cases hp : past_setB bl u with
    | none => rw [hp] at h; cases h
    | some r =>
      rw [hp] at h
      cases hr : pastSizes bl us with
      | none => rw [hr] at h; cases h
      | some rest =>
        rw [hr] at h
        have hk : keyed = (u, r.length) :: rest := by cases h; rfl
        subst hk
        rcases List.mem_cons.mp ht with ht | ht
        · have ht1 : t = u := congrArg Prod.fst ht
          have ht2 : n = r.length := congrArg Prod.snd ht
          subst ht1
          exact ⟨r, hp, ht2.symm⟩
        · exact ih hr t n ht

theorem pastSizes_success {bl : List (Nat × Block)} :
    ∀ {bts : List Nat}, (∀ t ∈ bts, ∃ r, past_setB bl t = some r) →
      ∃ keyed, pastSizes bl bts = some keyed := by
  intro bts
  induction bts with
  | nil => intro _; exact ⟨[], rfl⟩
  | cons u us ih =>
    intro h
    rcases h u (List.mem_cons_self _ _) with ⟨r, hr⟩
    rcases ih (fun t ht => h t (List.mem_cons_of_mem _ ht)) with ⟨rest, hrest⟩
    refine ⟨(u, r.length) :: rest, ?_⟩
    rw [pastSizes, hr, hrest]

/-! ### Lemmas about selected-parent recomputation -/

theorem usp_elim {s s' : ToyDag} (h : update_selected_parent s = some s') :
    ∃ bts keyed, blueTips s.blocks s.tips = some bts ∧
      pastSizes s.blocks bts = some keyed ∧
      ((∃ best, maxByKeyLast keyed = some best ∧
          s' = { s with selected_parent := best.1 }) ∨
       (maxByKeyLast keyed = none ∧ s' = s)) := by
  unfold update_selected_parent at h
  split at h
  · cases h
  · rename_i bts hb
    split at h
    · cases h
    · rename_i keyed hk
      split at h
      · rename_i best hm
        exact ⟨bts, keyed, hb, hk, Or.inl ⟨best, hm, by cases h; rfl⟩⟩
      · rename_i hm
        exact ⟨bts, keyed, hb, hk, Or.inr ⟨hm, by cases h; rfl⟩⟩

theorem usp_fields {s s' : ToyDag} (h : update_selected_parent s = some s') :
    s'.blocks = s.blocks ∧ s'.tips = s.tips ∧ s'.next_id = s.next_id := by
  rcases usp_elim h with ⟨bts, keyed, _, _, hcase | hcase⟩
  · rcases hcase with ⟨best, _, hs⟩
    subst hs
    exact ⟨rfl, rfl, rfl⟩
  · rcases hcase with ⟨_, hs⟩
    subst hs
    exact ⟨rfl, rfl, rfl⟩

theorem usp_success {s : ToyDag}
    (h1 : ∀ t ∈ s.tips, ∃ b, lookupBlock s.blocks t = some b)
    (h2 : ∀ t ∈ s.tips, ∃ r, past_setB s.blocks t = some r) :
    ∃ s', update_selected_parent s = some s' := by
  rcases blueTips_success h1 with ⟨bts, hb⟩
  have hsub : ∀ t ∈ bts, ∃ r, past_setB s.blocks t = some r := by
    intro t ht
    exact h2 t (blueTips_sound hb t ht).1
  rcases pastSizes_success hsub with ⟨keyed, hk⟩
  cases hm : maxByKeyLast keyed with
  | none => exact ⟨s, by simp only [update_selected_parent, hb, hk, hm]⟩
  | some best =>
    exact ⟨{ s with selected_parent := best.1 },
      by simp only [update_selected_parent, hb, hk, hm]⟩

/-! ### Lemmas about the past-set worklist -/

theorem foldDiscover_shape : ∀ (ps past queue : List Nat),
    ∃ fr, ps.foldl discover (past, queue) = (past ++ fr, fr.reverse ++ queue) ∧
      (∀ x ∈ fr, x ∈ ps) ∧ (∀ x ∈ ps, x ∈ past ++ fr) ∧
      (past.Nodup → (past ++ fr).Nodup) := by
  intro ps
  induction ps with
  | nil =>
    intro past queue
    exact ⟨[], by simp, by simp, by simp, fun h => by simpa using h⟩
  | cons p ps ih =>
    intro past queue
    rw [List.foldl_cons]
    by_cases hp : p ∈ past
    · have hd : discover (past, queue) p = (past, queue) := by simp [discover, hp]
      rw [hd]
      rcases ih past queue with ⟨fr, h1, h2, h3, h4⟩
      refine ⟨fr, h1, fun x hx => List.mem_cons_of_mem _ (h2 x hx), ?_, h4⟩
      intro x hx
      rcases List.mem_cons.mp hx with hx | hx
      · exact List.mem_append_left _ (hx ▸ hp)
      · exact h3 x hx
    · have hd : discover (past, queue) p = (past ++ [p], p :: queue) := by
        simp [discover, hp]
      rw [hd]
      rcases ih (past ++ [p]) (p :: queue) with ⟨fr, h1, h2, h3, h4⟩
      refine ⟨p :: fr, ?_, ?_, ?_, ?_⟩
      · rw [h1]
        refine Prod.ext ?_ ?_
        · simp
        · simp
      · intro x hx
        rcases List.mem_cons.mp hx with hx | hx
        · exact hx ▸ List.mem_cons_self _ _
        · exact List.mem_cons_of_mem _ (h2 x hx)
      · intro x hx
        rw [List.append_cons]
        rcases List.mem_cons.mp hx with hx | hx
        · exact List.mem_append_left _ (by simp [hx])
        · exact h3 x hx
      · intro hnd
        rw [List.append_cons]
        apply h4
        rw [List.nodup_append]
        exact ⟨hnd, List.nodup_singleton p,
          fun a ha hb => hp ((List.mem_singleton.mp hb) ▸ ha)⟩

theorem pastLoop_mono {bl : List (Nat × Block)} :
    ∀ (fuel : Nat) (queue past r : List Nat),
      pastLoop bl queue past fuel = some r → past ⊆ r := by
  intro fuel
  induction fuel with
  | zero =>
    intro queue past r h
    cases queue with
    | nil =>
      simp [pastLoop] at h
      subst h
      exact fun x hx => hx
    | cons c q => simp [pastLoop] at h
  | succ f ih =>
    intro queue past r h
    cases queue with
    | nil =>
      simp [pastLoop] at h
      subst h
      exact fun x hx => hx
    | cons c q =>
      simp only [pastLoop] at h
      split at h
      · cases h
      · rename_i b hl
        rcases foldDiscover_shape b.parents past q with ⟨fr, hsh, _, _, _⟩
        rw [hsh] at h
        exact fun x hx => ih _ _ r h (List.mem_append_left _ hx)

theorem pastLoop_sound {bl : List (Nat × Block)} {root : Nat} :
    ∀ (fuel : Nat) (queue past r : List Nat),
      pastLoop bl queue past fuel = some r →
      (∀ x ∈ past, ReachPar bl root x) → (∀ x ∈ queue, x ∈ past) →
      ∀ x ∈ r, ReachPar bl root x := by
  intro fuel
  induction fuel with
  | zero =>
    intro queue past r h hpast hq
    cases queue with
    | nil =>
      simp [pastLoop] at h
      subst h
      exact hpast
    | cons c q => simp [pastLoop] at h
  | succ f ih =>
    intro queue past r h hpast hq
    cases queue with
    | nil =>
      simp [pastLoop] at h
      subst h
      exact hpast
    | cons c q =>
      simp only [pastLoop] at h
      split at h
      · cases h
      · rename_i b hl
        rcases foldDiscover_shape b.parents past q with ⟨fr, hsh, hfr, _, _⟩
        rw [hsh] at h
        have hreach_c : ReachPar bl root c := hpast c (hq c (List.mem_cons_self _ _))
        have hpast' : ∀ x ∈ past ++ fr, ReachPar bl root x := by
          intro x hx
          rcases List.mem_append.mp hx with hx | hx
          · exact hpast x hx
          · exact hreach_c.tail ⟨b, hl, hfr x hx⟩
        have hq' : ∀ x ∈ fr.reverse ++ q, x ∈ past ++ fr := by
          intro x hx
          rcases List.mem_append.mp hx with hx | hx
          · exact List.mem_append_right _ (List.mem_reverse.mp hx)
          · exact List.mem_append_left _ (hq x (List.mem_cons_of_mem _ hx))
        exact ih _ _ r h hpast' hq'

theorem pastLoop_closed {bl : List (Nat × Block)} :
    ∀ (fuel : Nat) (queue past r : List Nat),
      pastLoop bl queue past fuel = some r →
      (∀ x ∈ past, x ∈ queue ∨
        ∃ b, lookupBlock bl x = some b ∧ ∀ p ∈ (b : Block).parents, p ∈ past) →
      ∀ x ∈ r, ∃ b, lookupBlock bl x = some b ∧ ∀ p ∈ (b : Block).parents, p ∈ r := by
  intro fuel
  induction fuel with
  | zero =>
    intro queue past r h hinv
    cases queue with
    | nil =>
      simp [pastLoop] at h
      subst h
      intro x hx
      rcases hinv x hx with hx' | hx'
      · simp at hx'
      · exact hx'
    | cons c q => simp [pastLoop] at h
  | succ f ih =>
    intro queue past r h hinv
    cases queue with
    | nil =>
      simp [pastLoop] at h
      subst h
      intro x hx
      rcases hinv x hx with hx' | hx'
      · simp at hx'
      · exact hx'
    | cons c q =>
      simp only [pastLoop] at h
      split at h
      · cases h
      · rename_i b hl
        rcases foldDiscover_shape b.parents past q with ⟨fr, hsh, _, hps, _⟩
        rw [hsh] at h
        apply ih _ _ r h
        intro x hx
        rcases List.mem_append.mp hx with hx | hx
        · rcases hinv x hx with hx' | hx'
          · rcases List.mem_cons.mp hx' with hx' | hx'
            · subst hx'
              exact Or.inr ⟨b, hl, hps⟩
            · exact Or.inl (List.mem_append_right _ hx')
          · rcases hx' with ⟨b', hb', hsub⟩
            exact Or.inr ⟨b', hb', fun p hp => List.mem_append_left _ (hsub p hp)⟩
        · exact Or.inl (List.mem_append_left _ (List.mem_reverse.mpr hx))

theorem pastLoop_success {bl : List (Nat × Block)} (hc : Closed bl) :
    ∀ (fuel : Nat) (queue past : List Nat),
      (∀ x ∈ queue, x ∈ past) → (∀ x ∈ past, x ∈ keysOf bl) → past.Nodup →
      (keysOf bl).length - past.length + queue.length < fuel →
      ∃ r, pastLoop bl queue past fuel = some r := by
  intro fuel
  induction fuel with
  | zero =>
    intro queue past hq hkeys hnd hm
    omega
  | succ f ih =>
    intro queue past hq hkeys hnd hm
    cases queue with
    | nil => exact ⟨past, by simp [pastLoop]⟩
    | cons c q =>
      have hck : c ∈ keysOf bl := hkeys c (hq c (List.mem_cons_self _ _))
      rcases mem_keys_lookup hck with ⟨b, hl⟩
      rcases foldDiscover_shape b.parents past q with ⟨fr, hsh, hfr, _, hnd'⟩
      have hparents : ∀ p ∈ b.parents, p ∈ keysOf bl :=
        hc (c, b) (lookupBlock_mem hl)
      have hkeys' : ∀ x ∈ past ++ fr, x ∈ keysOf bl := by
        intro x hx
        rcases List.mem_append.mp hx with hx | hx
        · exact hkeys x hx
        · exact hparents x (hfr x hx)
      have hq' : ∀ x ∈ fr.reverse ++ q, x ∈ past ++ fr := by
        intro x hx
        rcases List.mem_append.mp hx with hx | hx
        · exact List.mem_append_right _ (List.mem_reverse.mp hx)
        · exact List.mem_append_left _ (hq x (List.mem_cons_of_mem _ hx))
      have hlenle : (past ++ fr).length ≤ (keysOf bl).length :=
        (List.subperm_of_subset (hnd' hnd) hkeys').length_le
      have hm' : (keysOf bl).length - (past ++ fr).length +
          (fr.reverse ++ q).length < f := by
        rw [List.length_append, List.length_append, List.length_reverse] at *
        rw [List.length_cons] at hm
        omega
      rcases ih (fr.reverse ++ q) (past ++ fr) hq' hkeys' (hnd' hnd) hm' with ⟨r, hr⟩
      refine ⟨r, ?_⟩
      simp only [pastLoop, hl]
      rw [hsh]
      exact hr

theorem reach_mem_of_closed {bl : List (Nat × Block)} {root : Nat} {r : List Nat}
    (hcl : ∀ x ∈ r, ∃ b, lookupBlock bl x = some b ∧ ∀ p ∈ (b : Block).parents, p ∈ r)
    (hroot : root ∈ r) : ∀ x, ReachPar bl root x → x ∈ r := by
  intro x hx
  induction hx with
  | refl => exact hroot
  | tail hstep hedge ih =>
    rcases hedge with ⟨blk, hblk, hp⟩
    rcases hcl _ ih with ⟨b', hb', hsub⟩
    rw [hblk] at hb'
    cases hb'
    exact hsub _ hp

theorem past_setB_spec {bl : List (Nat × Block)} {id : Nat} (hc : Closed bl)
    (hid : id ∈ keysOf bl) :
    ∃ r, past_setB bl id = some r ∧ id ∈ r ∧
      (∀ x ∈ r, ReachPar bl id x) ∧ (∀ x, ReachPar bl id x → x ∈ r) ∧
      (∀ x ∈ r, x ∈ keysOf bl) := by
  have hL : 1 ≤ (keysOf bl).length := List.length_pos.mpr (by
    intro hnil
    rw [hnil] at hid
    simp at hid)
  have hLb : (keysOf bl).length = bl.length := List.length_map _ _
  have hmeas : (keysOf bl).length - ([id] : List Nat).length +
      ([id] : List Nat).length < bl.length + 1 := by
    simp only [List.length_cons, List.length_nil]
    omega
  rcases pastLoop_success hc (bl.length + 1) [id] [id] (fun x hx => hx)
      (fun x hx => by
        rcases List.mem_singleton.mp hx with rfl
        exact hid)
      (List.nodup_singleton id) hmeas with ⟨r, hr⟩
  have hmem : id ∈ r := pastLoop_mono _ _ _ _ hr (List.mem_singleton_self id)
  have hsound : ∀ x ∈ r, ReachPar bl id x :=
    pastLoop_sound _ _ _ _ hr
      (fun x hx => by
        rcases List.mem_singleton.mp hx with rfl
        exact Relation.ReflTransGen.refl)
      (fun x hx => hx)
  have hclosed := pastLoop_closed _ _ _ _ hr
    (fun x hx => Or.inl hx)
  have hcomplete : ∀ x, ReachPar bl id x → x ∈ r :=
    reach_mem_of_closed hclosed hmem
  refine ⟨r, hr, hmem, hsound, hcomplete, ?_⟩
  intro x hx
  rcases hclosed x hx with ⟨b, hb, _⟩
  exact lookup_mem_keys hb

/-! ### Lemmas about the future-set worklist -/

theorem childScan_fold_mono (current : Nat) :
    ∀ (l : List (Nat × Block)) (future queue : List Nat),
      future ⊆ (l.foldl (childScan current) (future, queue)).1 := by
  intro l
  induction l with
  | nil => intro future queue; exact fun x hx => hx
  | cons kb rest ih =>
    intro future queue
    rw [List.foldl_cons]
    by_cases hcond : current ∈ kb.2.parents ∧ kb.1 ∉ future
    · have hd : childScan current (future, queue) kb =
          (future ++ [kb.1], kb.1 :: queue) := by
        simp [childScan, hcond]
      rw [hd]
      exact (List.subset_append_left _ _).trans (ih _ _)
    · have hd : childScan current (future, queue) kb = (future, queue) := by
        simp only [childScan]
        rw [if_neg hcond]
      rw [hd]
      exact ih _ _

theorem childScan_fold_id (current : Nat) :
    ∀ (l : List (Nat × Block)) (future queue : List Nat),
      (∀ kb ∈ l, current ∉ (kb : Nat × Block).2.parents) →
      l.foldl (childScan current) (future, queue) = (future, queue) := by
  intro l
  induction l with
  | nil => intro future queue _; rfl
  | cons kb rest ih =>
    intro future queue h
    rw [List.foldl_cons]
    have hd : childScan current (future, queue) kb = (future, queue) := by
      simp only [childScan]
      rw [if_neg]
      intro hcond
      exact h kb (List.mem_cons_self _ _) hcond.1
    rw [hd]
    exact ih future queue (fun kb hkb => h kb (List.mem_cons_of_mem _ hkb))

theorem futureLoop_mono {bl : List (Nat × Block)} :
    ∀ (fuel : Nat) (queue future : List Nat),
      future ⊆ futureLoop bl queue future fuel := by
  intro fuel
  induction fuel with
  | zero =>
    intro queue future
    cases queue with
    | nil => simp [futureLoop]
    | cons c q => simp [futureLoop]
  | succ f ih =>
    intro queue future
    cases queue with
    | nil => simp [futureLoop]
    | cons c q =>
      simp only [futureLoop]
      exact (childScan_fold_mono c bl future q).trans (ih _ _)

theorem future_setB_mem_self (bl : List (Nat × Block)) (id : Nat) :
    id ∈ future_setB bl id :=
  futureLoop_mono _ _ _ (List.mem_singleton_self id)

theorem future_setB_singleton {bl : List (Nat × Block)} {id : Nat}
    (h : ∀ kb ∈ bl, id ∉ (kb : Nat × Block).2.parents) :
    future_setB bl id = [id] := by
  rw [future_setB]
  simp only [futureLoop]
  rw [childScan_fold_id id bl [id] [] h]
  cases hb : bl.length with
  | zero => simp [futureLoop]
  | succ n => simp [futureLoop]

/-! ### Lemmas about block creation -/

theorem create_block_elim {H : List Nat → List Nat} {k : Nat} {s s' : ToyDag}
    {ps : List Nat} {id : Nat} (h : create_block H k s ps = some (s', id)) :
    ps ≠ [] ∧ id = s.next_id ∧
    update_selected_parent (midState H k s ps) = some s' ∧
    s'.blocks = insertBlock s.blocks s.next_id (newBlock H k s ps) ∧
    s'.tips = insertSet s.next_id (removeTips s.tips ps) ∧
    s'.next_id = s.next_id + 1 := by
  simp only [create_block] at h
  split at h
  · cases h
  · rename_i hne
    split at h
    · cases h
    · rename_i s'' hu
      have hpair : s'' = s' ∧ s.next_id = id := by
        cases h
        exact ⟨rfl, rfl⟩
      obtain ⟨hs, hid⟩ := hpair
      rw [hs] at hu
      have hu' : update_selected_parent (midState H k s ps) = some s' := by
        simpa [midState, newBlock] using hu
      obtain ⟨hbl, htp, _⟩ := usp_fields hu'
      refine ⟨hne, hid.symm, hu', ?_, ?_, ?_⟩
      · rw [hbl]
        simp [midState, newBlock]
      · rw [htp]
        simp [midState]
      · rw [(usp_fields hu').2.2]
        simp [midState]

theorem create_block_success (H : List Nat → List Nat) (k : Nat) {s : ToyDag}
    {ps : List Nat} (hw : WfDag s) (hne : ps ≠ [])
    (hex : ∀ p ∈ ps, p ∈ keysOf s.blocks) :
    ∃ s', create_block H k s ps = some (s', s.next_id) := by
  obtain ⟨hc, hlt, htips⟩ := hw
  have hcm : Closed (midState H k s ps).blocks := by
    intro kb hkb p hp
    simp only [midState] at hkb
    rcases mem_insertBlock hkb with hkb | hkb
    · have hpp : p ∈ ps := by
        rw [hkb] at hp
        simpa [newBlock] using hp
      exact mem_keys_insertBlock _ (hex p hpp)
    · exact mem_keys_insertBlock _ (hc kb hkb p hp)
  have htm : ∀ t ∈ (midState H k s ps).tips, t ∈ keysOf (midState H k s ps).blocks := by
    intro t ht
    simp only [midState] at ht ⊢
    rcases mem_insertSet_cases ht with ht | ht
    · subst ht
      exact lookup_mem_keys (lookupBlock_insertBlock_self _ _ _)
    · exact mem_keys_insertBlock _ (htips t (removeTips_subset ps s.tips ht))
  rcases usp_success (fun t ht => mem_keys_lookup (htm t ht))
      (fun t ht => (past_setB_spec hcm (htm t ht)).imp (fun r hr => hr.1))
      with ⟨s'', hu⟩
  refine ⟨s'', ?_⟩
  simp only [create_block, if_neg hne]
  have hu' : update_selected_parent
      ⟨insertBlock s.blocks s.next_id
         ⟨s.next_id, ps, classifyColor k s s.next_id, H (hashMsg s.next_id ps)⟩,
       insertSet s.next_id (removeTips s.tips ps),
       s.next_id + 1, s.selected_parent⟩ = some s'' := by
    simpa [midState, newBlock] using hu
  rw [hu']

theorem anticone_size_zero {s : ToyDag} {id ref : Nat}
    (h : future_set s id = [id]) : anticone_size s id ref = 0 := by
  rw [anticone_size, h]
  have hle := List.length_filter_le
    (fun x => decide (x ∉ future_set s ref)) [id]
  simp only [List.length_singleton] at hle
  omega

theorem classifyColor_blue {k : Nat} {s : ToyDag}
    (h : future_set s s.next_id = [s.next_id]) :
    classifyColor k s s.next_id = Color.Blue := by
  rw [classifyColor, anticone_size_zero h, if_pos (Nat.zero_le k)]

theorem wf_no_future_parent {s : ToyDag} (hw : WfDag s) :
    ∀ kb ∈ s.blocks, s.next_id ∉ (kb : Nat × Block).2.parents := by
  intro kb hkb hp
  have hk := hw.1 kb hkb s.next_id hp
  have := hw.2.1 _ hk
  omega

theorem create_block_inv {H : List Nat → List Nat} {k : Nat} {s s' : ToyDag}
    {ps : List Nat} {id : Nat} (hw : WfDag s) (hall : AllBlue s)
    (h : create_block H k s ps = some (s', id)) : WfDag s' ∧ AllBlue s' := by
  obtain ⟨hne, hid, hu, hbl, htp, hnx⟩ := create_block_elim h
  have hsing : future_set s s.next_id = [s.next_id] :=
    future_setB_singleton (wf_no_future_parent hw)
  have hblue : classifyColor k s s.next_id = Color.Blue := classifyColor_blue hsing
  have hlookm : lookupBlock (midState H k s ps).blocks s.next_id =
      some (newBlock H k s ps) := by
    simp only [midState]
    exact lookupBlock_insertBlock_self _ _ _
  have htipm : s.next_id ∈ (midState H k s ps).tips := by
    simp only [midState]
    exact mem_insertSet_self _ _
  rcases usp_elim hu with ⟨bts, keyed, hbt, hkt, _⟩
  have hmembts : s.next_id ∈ bts := by
    apply blueTips_complete hbt _ htipm _ hlookm
    simp [newBlock, hblue]
  have hexn : ∃ n, (s.next_id, n) ∈ keyed := by
    have hfst := pastSizes_fst hkt
    rw [← hfst] at hmembts
    rcases List.mem_map.mp hmembts with ⟨pr, hpr, hfst'⟩
    exact ⟨pr.2, by rwa [← hfst']⟩
  rcases hexn with ⟨n, hkeyn⟩
  rcases pastSizes_sound hkt _ n hkeyn with ⟨r, hrsome, _⟩
  rw [past_setB] at hrsome
  have hclosr := pastLoop_closed _ _ _ _ hrsome (fun x hx => Or.inl hx)
  have hmemr : s.next_id ∈ r :=
    pastLoop_mono _ _ _ _ hrsome (List.mem_singleton_self _)
  have hrkeys : ∀ x ∈ r, x ∈ keysOf (midState H k s ps).blocks := by
    intro x hx
    rcases hclosr x hx with ⟨b2, hb2, _⟩
    exact lookup_mem_keys hb2
  have hpsr : ∀ p ∈ ps, p ∈ r := by
    rcases hclosr _ hmemr with ⟨b2, hb2, hsub⟩
    rw [hlookm] at hb2
    cases hb2
    intro p hp
    exact hsub p (by simpa [newBlock] using hp)
  have hpskeys : ∀ p ∈ ps, p ∈ keysOf (midState H k s ps).blocks :=
    fun p hp => hrkeys p (hpsr p hp)
  have hkeysm : keysOf (midState H k s ps).blocks =
      keysOf (insertBlock s.blocks s.next_id (newBlock H k s ps)) := by
    simp [midState]
  constructor
  · refine ⟨?_, ?_, ?_⟩
    · intro kb hkb p hp
      rw [hbl] at hkb ⊢
      rcases mem_insertBlock hkb with hkb | hkb
      · have hpp : p ∈ ps := by
          rw [hkb] at hp
          simpa [newBlock] using hp
        have := hpskeys p hpp
        rwa [hkeysm] at this
      · exact mem_keys_insertBlock _ (hw.1 kb hkb p hp)
    · intro i hi
      rw [hbl] at hi
      rw [hnx]
      rcases keys_insertBlock_cases hi with hi | hi
      · omega
      · have := hw.2.1 i hi
        omega
    · intro t ht
      rw [htp] at ht
      rw [hbl]
      rcases mem_insertSet_cases ht with ht | ht
      · subst ht
        exact lookup_mem_keys (lookupBlock_insertBlock_self _ _ _)
      · exact mem_keys_insertBlock _ (hw.2.2 t (removeTips_subset ps s.tips ht))
  · intro kb hkb
    rw [hbl] at hkb
    rcases mem_insertBlock hkb with hkb | hkb
    · rw [hkb]
      simpa [newBlock] using hblue
    · exact hall kb hkb

theorem stitch_inv {H : List Nat → List Nat} {k thr : Nat} {s s' : ToyDag}
    (hw : WfDag s) (hall : AllBlue s)
    (h : stitch_if_needed H k thr s = some s') : WfDag s' ∧ AllBlue s' := by
  simp only [stitch_if_needed] at h
  split at h
  · split at h
    · cases h
    · rename_i s2 id2 hcb
      have hs : s2 = s' := by cases h; rfl
      rw [hs] at hcb
      exact create_block_inv hw hall hcb
  · have hs : s = s' := by cases h; rfl
    subst hs
    exact ⟨hw, hall⟩

theorem reachable_inv {H : List Nat → List Nat} {k thr : Nat} {s : ToyDag}
    (h : Reachable H k thr s) : WfDag s ∧ AllBlue s := by
  induction h with
  | base =>
    refine ⟨?_, ?_⟩
    · unfold WfDag Closed
      decide
    · unfold AllBlue
      decide
  | create s s' ps id hr hcb ih => exact create_block_inv ih.1 ih.2 hcb
  | stitch s s' hr hst ih => exact stitch_inv ih.1 ih.2 hst

/-! ### Claim theorems -/

/-- C2: classification is evaluated for the new id before the new block is
linked into the graph, at which instant its future set is exactly the
singleton of the new id; the stored block carries the color classified
against the pre-insertion state; and with K = 0, on a DAG containing only
genesis, two successive `create_block([0])` calls classify both blocks
Blue. -/
theorem C2_classify_before_link :
    (∀ s : ToyDag,
      (∀ kb ∈ s.blocks, s.next_id ∉ (kb : Nat × Block).2.parents) →
      future_set s s.next_id = [s.next_id]) ∧
    (∀ (H : List Nat → List Nat) (k : Nat) (s s' : ToyDag) (ps : List Nat) (id : Nat),
      create_block H k s ps = some (s', id) →
      lookupBlock s'.blocks id = some (newBlock H k s ps)) ∧
    (iterCreate H0 0 2).map (fun s => s.blocks.map (fun kb => kb.2.color)) =
      some [Color.Blue, Color.Blue, Color.Blue] := by
  refine ⟨?_, ?_, by decide⟩
  · intro s h
    exact future_setB_singleton h
  · intro H k s s' ps id h
    obtain ⟨_, hid, _, hbl, _, _⟩ := create_block_elim h
    subst hid
    rw [hbl]
    exact lookupBlock_insertBlock_self _ _ _

/-- Witness for C2: the fresh DAG satisfies the no-future-parent hypothesis
and the future set of the next id is the singleton of that id. -/
theorem C2_witness :
    (∀ kb ∈ ToyDag.new.blocks, ToyDag.new.next_id ∉ (kb : Nat × Block).2.parents) ∧
    future_set ToyDag.new ToyDag.new.next_id = [ToyDag.new.next_id] := by
  have h : ∀ kb ∈ ToyDag.new.blocks,
      ToyDag.new.next_id ∉ (kb : Nat × Block).2.parents := by decide
  exact ⟨h, C2_classify_before_link.1 ToyDag.new h⟩

/-- C4: the claim states that looking up an unknown id surfaces a NotFound
error outcome rather than aborting.  The code instead indexes the block map
directly; evaluating the code at unknown id 999 in `past_set` and at an
unknown tip in `update_selected_parent` aborts (modelled as `none`), so the
claim describes behavior the code does not have. -/
theorem C4_unknown_id_aborts :
    past_set ToyDag.new 999 = none ∧
    update_selected_parent ⟨[(0, genesisBlock)], [999], 1, 0⟩ = none := by
  exact ⟨by decide, by decide⟩

/-- C5: every block stored by create_block carries the digest of the 8-byte
big-endian encoding of its id followed by the 8-byte big-endian encodings of
its parent ids sorted ascending, and two parent lists that are permutations
of each other produce the same digest preimage, hence the same hash. -/
theorem C5_hash_formula (H : List Nat → List Nat) (k : Nat) (s s' : ToyDag)
    (ps ps' : List Nat) (id : Nat)
    (h : create_block H k s ps = some (s', id)) (hperm : List.Perm ps' ps) :
    lookupBlock s'.blocks id =
      some ⟨id, ps, classifyColor k s id,
        H (beBytes id ++ ((insSort ps).map beBytes).flatten)⟩ ∧
    hashMsg id ps' = hashMsg id ps := by
  obtain ⟨_, hid, _, hbl, _, _⟩ := create_block_elim h
  subst hid
  constructor
  · rw [hbl]
    exact lookupBlock_insertBlock_self _ _ _
  · rw [hashMsg, hashMsg, insSort_eq_of_perm hperm]

/-- Witness for C5: a two-parent creation on the one-child DAG, with the
parent list given in descending order and its ascending permutation. -/
theorem C5_witness :
    create_block H0 K oneChild [1, 0] = some (twoPair.1, twoPair.2) ∧
    List.Perm [0, 1] [1, 0] ∧
    lookupBlock twoPair.1.blocks twoPair.2 =
      some ⟨twoPair.2, [1, 0], classifyColor K oneChild twoPair.2,
        H0 (beBytes twoPair.2 ++ ((insSort [1, 0]).map beBytes).flatten)⟩ ∧
    hashMsg twoPair.2 [0, 1] = hashMsg twoPair.2 [1, 0] := by
  have h : create_block H0 K oneChild [1, 0] = some (twoPair.1, twoPair.2) := by
    decide
  have hp : List.Perm [0, 1] [1, 0] := by decide
  have := C5_hash_formula H0 K oneChild twoPair.1 [1, 0] [0, 1] twoPair.2 h hp
  exact ⟨h, hp, this.1, this.2⟩

/-- C7: after every successful create_block call the tip set is non-empty:
the tips are recomputed by the guarded parent-removal fold and the new id is
then unconditionally inserted, so it is always a member. -/
theorem C7_tips_nonempty (H : List Nat → List Nat) (k : Nat) (s s' : ToyDag)
    (ps : List Nat) (id : Nat) (h : create_block H k s ps = some (s', id)) :
    s'.tips = insertSet id (removeTips s.tips ps) ∧
    id ∈ s'.tips ∧ s'.tips ≠ [] := by
  obtain ⟨_, hid, _, _, htp, _⟩ := create_block_elim h
  subst hid
  refine ⟨htp, ?_, ?_⟩
  · rw [htp]
    exact mem_insertSet_self _ _
  · rw [htp]
    exact insertSet_ne_nil _ _

/-- Witness for C7: the first creation on a fresh DAG. -/
theorem C7_witness :
    create_block H0 K ToyDag.new [0] = some (onePair.1, onePair.2) ∧
    onePair.1.tips = insertSet onePair.2 (removeTips ToyDag.new.tips [0]) ∧
    onePair.2 ∈ onePair.1.tips ∧ onePair.1.tips ≠ [] := by
  have h : create_block H0 K ToyDag.new [0] = some (onePair.1, onePair.2) := by
    decide
  have := C7_tips_nonempty H0 K ToyDag.new onePair.1 [0] onePair.2 h
  exact ⟨h, this.1, this.2.1, this.2.2⟩

/-- C8: for every id present in the block store of a closed DAG, the past
set of the id succeeds, contains the id, and is a superset of the past set
of every parent of the block stored at that id; and the future set of the
id contains the id. -/
theorem C8_past_future (s : ToyDag) (id : Nat) (b : Block)
    (hc : Closed s.blocks) (hid : lookupBlock s.blocks id = some b) :
    ∃ r, past_set s id = some r ∧ id ∈ r ∧
      (∀ p ∈ b.parents, ∃ rp, past_set s p = some rp ∧ rp ⊆ r) ∧
      id ∈ future_set s id := by
  rcases past_setB_spec hc (lookup_mem_keys hid) with ⟨r, hr, hmem, _, hcomp, _⟩
  refine ⟨r, hr, hmem, ?_, future_setB_mem_self _ _⟩
  intro p hp
  have hpk : p ∈ keysOf s.blocks := hc (id, b) (lookupBlock_mem hid) p hp
  rcases past_setB_spec hc hpk with ⟨rp, hrp, _, hsoundp, _, _⟩
  refine ⟨rp, hrp, ?_⟩
  intro x hx
  have hedge : ParentEdge s.blocks id p := ⟨b, hid, hp⟩
  exact hcomp x ((Relation.ReflTransGen.single hedge).trans (hsoundp x hx))

/-- Witness for C8: genesis in the fresh DAG. -/
theorem C8_witness :
    Closed ToyDag.new.blocks ∧
    lookupBlock ToyDag.new.blocks 0 = some genesisBlock ∧
    (∃ r, past_set ToyDag.new 0 = some r ∧ 0 ∈ r ∧
      (∀ p ∈ genesisBlock.parents, ∃ rp, past_set ToyDag.new p = some rp ∧ rp ⊆ r) ∧
      0 ∈ future_set ToyDag.new 0) := by
  have hc : Closed ToyDag.new.blocks := by
    unfold Closed
    decide
  have hid : lookupBlock ToyDag.new.blocks 0 = some genesisBlock := by decide
  exact ⟨hc, hid, C8_past_future ToyDag.new 0 genesisBlock hc hid⟩

/-- C3 counterexample: two states with the same block store and the same tip
membership, differing only in the iteration order of the tip set, yield
different selected parents (2 for order 1,2 and 1 for order 2,1), so the
tie-break is neither the smallest id nor a function of the DAG state. -/
theorem C3_counterexample :
    c3s12.blocks = c3s21.blocks ∧ List.Perm c3s12.tips c3s21.tips ∧
    (update_selected_parent c3s12).map ToyDag.selected_parent = some 2 ∧
    (update_selected_parent c3s21).map ToyDag.selected_parent = some 1 := by
  exact ⟨rfl, by decide, by decide, by decide⟩

/-- C3 amended: the recomputation filters the tips to Blue ones and selects
one with maximal past-set cardinality, but the tie between equally heavy
Blue tips is broken by iteration order (the last maximum in iteration
order), not by a fixed rule on the DAG state; with no Blue tip the selected
parent is unchanged. -/
theorem C3_amended (s s' : ToyDag) (bts : List Nat) (keyed : List (Nat × Nat))
    (h : update_selected_parent s = some s')
    (hb : blueTips s.blocks s.tips = some bts)
    (hk : pastSizes s.blocks bts = some keyed) :
    (∀ t ∈ bts, t ∈ s.tips ∧
      ∃ b, lookupBlock s.blocks t = some b ∧ b.color = Color.Blue) ∧
    (∀ t ∈ s.tips, ∀ b, lookupBlock s.blocks t = some b →
      b.color = Color.Blue → t ∈ bts) ∧
    (∀ t m, (t, m) ∈ keyed → ∃ r, past_setB s.blocks t = some r ∧ r.length = m) ∧
    (bts = [] → s'.selected_parent = s.selected_parent) ∧
    (bts ≠ [] → ∃ n, (s'.selected_parent, n) ∈ keyed ∧
      ∀ t m, (t, m) ∈ keyed → m ≤ n) := by
  rcases usp_elim h with ⟨bts₀, keyed₀, hb₀, hk₀, hcase⟩
  rw [hb] at hb₀
  cases hb₀
  rw [hk] at hk₀
  cases hk₀
  refine ⟨blueTips_sound hb, blueTips_complete hb, pastSizes_sound hk, ?_, ?_⟩
  · intro hnil
    subst hnil
    have hkeyed : keyed = [] := by
      have : pastSizes s.blocks [] = some ([] : List (Nat × Nat)) := rfl
      rw [this] at hk
      cases hk
      rfl
    subst hkeyed
    rcases hcase with ⟨best, hm, _⟩ | ⟨_, hs⟩
    · cases hm
    · rw [hs]
  · intro hne
    rcases hcase with ⟨best, hm, hs⟩ | ⟨hm, hs⟩
    · refine ⟨best.2, ?_, ?_⟩
      · have hmm := maxByKeyLast_mem hm
        rw [hs]
        simpa using hmm
      · intro t m hm'
        exact maxByKeyLast_max hm (t, m) hm'
    · exfalso
      apply hne
      have hkeyed : keyed = [] := maxByKeyLast_none hm
      have hfst := pastSizes_fst hk
      rw [hkeyed] at hfst
      exact hfst.symm

/-- Witness for C3 amended: the order-1,2 state, whose Blue tips are 1 and 2
with past sizes 2 and 2, and whose recomputation selects tip 2. -/
theorem C3_witness :
    update_selected_parent c3s12 = some c3post12 ∧
    blueTips c3s12.blocks c3s12.tips = some [1, 2] ∧
    pastSizes c3s12.blocks [1, 2] = some [(1, 2), (2, 2)] ∧
    (([1, 2] : List Nat) ≠ [] →
      ∃ n, (c3post12.selected_parent, n) ∈ ([(1, 2), (2, 2)] : List (Nat × Nat)) ∧
        ∀ t m, (t, m) ∈ ([(1, 2), (2, 2)] : List (Nat × Nat)) → m ≤ n) := by
  have h1 : update_selected_parent c3s12 = some c3post12 := by decide
  have h2 : blueTips c3s12.blocks c3s12.tips = some [1, 2] := by decide
  have h3 : pastSizes c3s12.blocks [1, 2] = some [(1, 2), (2, 2)] := by decide
  exact ⟨h1, h2, h3, (C3_amended c3s12 c3post12 [1, 2] [(1, 2), (2, 2)] h1 h2 h3).2.2.2.2⟩

/-- C6 counterexample: a non-empty parent list naming an id that is not in
the store makes create_block abort (the past-set recomputation indexes the
missing parent), so not every non-empty parent list completes. -/
theorem C6_counterexample : create_block H0 K ToyDag.new [999] = none := by decide

/-- C6 amended: create_block with an empty parent list fails fatally before
any state component is touched (the embedding returns `none` from the
emptiness check that precedes every mutation), and for every non-empty list
of parents that are all present in the store of a well-formed state the call
completes with a fully formed, hashed, colored, tip-updated block stored. -/
theorem C6_atomic (H : List Nat → List Nat) (k : Nat) (s : ToyDag) (ps : List Nat)
    (hw : WfDag s) (hne : ps ≠ []) (hex : ∀ p ∈ ps, p ∈ keysOf s.blocks) :
    create_block H k s [] = none ∧
    ∃ s', create_block H k s ps = some (s', s.next_id) ∧
      lookupBlock s'.blocks s.next_id = some (newBlock H k s ps) ∧
      s'.tips = insertSet s.next_id (removeTips s.tips ps) ∧
      s'.tips ≠ [] ∧ s'.next_id = s.next_id + 1 := by
  refine ⟨by simp [create_block], ?_⟩
  rcases create_block_success H k hw hne hex with ⟨s', hcb⟩
  obtain ⟨_, _, _, hbl, htp, hnx⟩ := create_block_elim hcb
  refine ⟨s', hcb, ?_, htp, ?_, hnx⟩
  · rw [hbl]
    exact lookupBlock_insertBlock_self _ _ _
  · rw [htp]
    exact insertSet_ne_nil _ _

/-- Witness for C6: the fresh DAG with the genesis parent list. -/
theorem C6_witness :
    WfDag ToyDag.new ∧ (([0] : List Nat) ≠ []) ∧
    (∀ p ∈ ([0] : List Nat), p ∈ keysOf ToyDag.new.blocks) ∧
    create_block H0 K ToyDag.new [] = none ∧
    (∃ s', create_block H0 K ToyDag.new [0] = some (s', ToyDag.new.next_id) ∧
      lookupBlock s'.blocks ToyDag.new.next_id =
        some (newBlock H0 K ToyDag.new [0]) ∧
      s'.tips = insertSet ToyDag.new.next_id (removeTips ToyDag.new.tips [0]) ∧
      s'.tips ≠ [] ∧ s'.next_id = ToyDag.new.next_id + 1) := by
  have hw : WfDag ToyDag.new := by
    unfold WfDag Closed
    decide
  have hne : ([0] : List Nat) ≠ [] := by decide
  have hex : ∀ p ∈ ([0] : List Nat), p ∈ keysOf ToyDag.new.blocks := by decide
  have := C6_atomic H0 K ToyDag.new [0] hw hne hex
  exact ⟨hw, hne, hex, this.1, this.2⟩

/-- C1 counterexample: after twelve children of genesis the tip set has
twelve elements, which exceeds the stitch threshold of ten; invoking the
consolidator leaves a tip set of cardinality 2 (the merge block plus one
surviving prior tip), not cardinality 1 as the claim states, because the
tip-removal guard refuses to remove the last remaining tip. -/
theorem C1_counterexample :
    STITCH_THRESHOLD < 12 ∧
    (iterCreate H0 K 12).map (fun s => s.tips.length) = some 12 ∧
    ((iterCreate H0 K 12).bind (stitch_if_needed H0 K STITCH_THRESHOLD)).map
      (fun s => s.tips.length) = some 2 := by
  exact ⟨by decide, by decide, by decide⟩

/-- C1 amended: when the tip count exceeds the threshold, stitching creates
exactly one new block whose parent list is the prior tip-set snapshot, and
afterwards the tip set has cardinality 2: it contains the new merge block
together with exactly one tip surviving from the prior snapshot (the guard
never empties the tip set, so the last merged tip is not removed). -/
theorem C1_amended (H : List Nat → List Nat) (k thr : Nat) (s s' : ToyDag)
    (hnd : s.tips.Nodup) (hfresh : s.next_id ∉ s.tips)
    (hkey : s.next_id ∉ keysOf s.blocks) (hgt : s.tips.length > thr)
    (h : stitch_if_needed H k thr s = some s') :
    s'.blocks.length = s.blocks.length + 1 ∧
    lookupBlock s'.blocks s.next_id = some (newBlock H k s s.tips) ∧
    (newBlock H k s s.tips).parents = s.tips ∧
    s'.tips.length = 2 ∧ s.next_id ∈ s'.tips ∧
    (∀ x ∈ s'.tips, x = s.next_id ∨ x ∈ s.tips) := by
  simp only [stitch_if_needed] at h
  rw [if_pos hgt] at h
  split at h
  · cases h
  · rename_i s2 id2 hcb
    have hs : s2 = s' := by cases h; rfl
    rw [hs] at hcb
    obtain ⟨_, _, _, hbl, htp, _⟩ := create_block_elim hcb
    have hrem1 : (removeTips s.tips s.tips).length = 1 := by
      have hcov := removeTips_cover s.tips s.tips hnd (fun x hx => hx) hnd (by omega)
      rw [hcov, Nat.sub_self]
      rfl
    have hnotin : s.next_id ∉ removeTips s.tips s.tips :=
      fun hx => hfresh (removeTips_subset s.tips s.tips hx)
    refine ⟨?_, ?_, ?_, ?_, ?_, ?_⟩
    · rw [hbl]
      exact length_insertBlock _ hkey
    · rw [hbl]
      exact lookupBlock_insertBlock_self _ _ _
    · rfl
    · rw [htp, length_insertSet hnotin, hrem1]
    · rw [htp]
      exact mem_insertSet_self _ _
    · intro x hx
      rw [htp] at hx
      rcases mem_insertSet_cases hx with hx | hx
      · exact Or.inl hx
      · exact Or.inr (removeTips_subset s.tips s.tips hx)

/-- Witness for C1 amended: the state with eleven children of genesis as
tips; stitching it leaves exactly two tips. -/
theorem C1_witness :
    c1w.tips.Nodup ∧ c1w.next_id ∉ c1w.tips ∧
    c1w.next_id ∉ keysOf c1w.blocks ∧ c1w.tips.length > STITCH_THRESHOLD ∧
    stitch_if_needed H0 K STITCH_THRESHOLD c1w = some c1post ∧
    c1post.tips.length = 2 := by
  have h1 : c1w.tips.Nodup := by decide
  have h2 : c1w.next_id ∉ c1w.tips := by decide
  have h3 : c1w.next_id ∉ keysOf c1w.blocks := by decide
  have h4 : c1w.tips.length > STITCH_THRESHOLD := by decide
  have h5 : stitch_if_needed H0 K STITCH_THRESHOLD c1w = some c1post := by decide
  exact ⟨h1, h2, h3, h4, h5,
    (C1_amended H0 K STITCH_THRESHOLD c1w c1post h1 h2 h3 h4 h5).2.2.2.1⟩

/-- C9: the byte buffer the core hands to the FEC collaborator is the
concatenation of the stored blocks' hashes sorted by block id ascending
with no separators, and whenever decoding of any subset of the encoded
packets succeeds under the spec-modelled FEC collaborator, the recovered
buffer is byte-identical to the original. -/
theorem C9_fec_buffer (s : ToyDag) (r : Nat) (received : List (List Nat))
    (out : List Nat)
    (hrec : ∀ p ∈ received, p ∈ fecEncode (dag_hash_buffer s) r)
    (hdec : fecDecode received = some out) :
    out = dag_hash_buffer s ∧
    ∃ bs, List.Perm bs (s.blocks.map Prod.snd) ∧
      bs.Pairwise (fun a c => (a : Block).id ≤ (c : Block).id) ∧
      dag_hash_buffer s = (bs.map Block.hash).flatten := by
  constructor
  · have hmem : out ∈ received := by
      cases received with
      | nil => cases hdec
      | cons a as =>
        have ha : a = out := by
          simpa [fecDecode] using hdec
        rw [← ha]
        exact List.mem_cons_self _ _
    have hrep := hrec out hmem
    rw [fecEncode] at hrep
    exact List.eq_of_mem_replicate hrep
  · exact ⟨sortById (s.blocks.map Prod.snd), sortById_perm _, sortById_pairwise _, rfl⟩

/-- Witness for C9: the fresh DAG, three redundant packets, one received
packet, successful decode. -/
theorem C9_witness :
    (∀ p ∈ ([dag_hash_buffer ToyDag.new] : List (List Nat)),
      p ∈ fecEncode (dag_hash_buffer ToyDag.new) 2) ∧
    fecDecode [dag_hash_buffer ToyDag.new] = some (dag_hash_buffer ToyDag.new) ∧
    dag_hash_buffer ToyDag.new = dag_hash_buffer ToyDag.new ∧
    (∃ bs, List.Perm bs (ToyDag.new.blocks.map Prod.snd) ∧
      bs.Pairwise (fun a c => (a : Block).id ≤ (c : Block).id) ∧
      dag_hash_buffer ToyDag.new = (bs.map Block.hash).flatten) := by
  have h1 : ∀ p ∈ ([dag_hash_buffer ToyDag.new] : List (List Nat)),
      p ∈ fecEncode (dag_hash_buffer ToyDag.new) 2 := by decide
  have h2 : fecDecode [dag_hash_buffer ToyDag.new] =
      some (dag_hash_buffer ToyDag.new) := rfl
  have := C9_fec_buffer ToyDag.new 2 [dag_hash_buffer ToyDag.new]
    (dag_hash_buffer ToyDag.new) h1 h2
  exact ⟨h1, h2, this.1.symm ▸ rfl, this.2⟩

/-- C10: in every reachable DAG state every stored block is Blue: genesis is
constructed Blue, and each creation classifies the fresh id Blue because its
future set at classification time is the singleton of the fresh id, making
the anticone size 0, which is at most k. -/
theorem C10_all_blue (H : List Nat → List Nat) (k thr : Nat) (s : ToyDag)
    (h : Reachable H k thr s) :
    ∀ kb ∈ s.blocks, (kb : Nat × Block).2.color = Color.Blue :=
  (reachable_inv h).2

/-- Witness for C10: the state reached by one creation step from the fresh
DAG, whose created block is Blue. -/
theorem C10_witness :
    (1, oneBlk) ∈ oneChild.blocks ∧ oneBlk.color = Color.Blue := by
  have hcb : create_block H0 K ToyDag.new [0] = some (oneChild, 1) := by decide
  refine ⟨by decide, ?_⟩
  exact C10_all_blue H0 K STITCH_THRESHOLD oneChild
    (Reachable.create ToyDag.new oneChild [0] 1 Reachable.base hcb) (1, oneBlk)
    (by decide)

end ToyFec
